import Mathlib

/-!
Verification of the FFT GPU benchmark harness
(`main_fft_many_floats_stockham_twiddles_images.cpp`).

The development shallowly embeds the orchestration layer of the program:

* `ReplaceString` (the text-substitution helper) is embedded twice: once as
  the C++ `pos`-based loop over `std::string::find`/`replace` (`rsStep` /
  `rsRun`), and once as the greedy left-to-right scanner `replaceAll`; a
  bridge theorem shows the loop, whenever it terminates, computes
  `replaceAll`.
* The `ScopedKernel` constructor's capacity-probing loop is embedded as
  `proberRun` / `proberTried`, with the device's per-compile
  `CL_KERNEL_WORK_GROUP_SIZE` answers abstracted as a function of the trial
  index.
* The benchmarking loop of `withInput` is embedded as `benchEnqueues` /
  `benchElapsed` / `benchReport` (device timestamps abstracted as functions
  of the iteration index; the C++ `double` accumulator is modelled by exact
  natural-number arithmetic).
* The local-memory precondition of `withInput` and the size sweep of `main`
  are embedded as `withInputTrace`, `sweepSizes` and `driverCompleted`.

Strings are modelled as `List Char`.  Recursions that the C++ performs with
a mutable cursor are written with explicit fuel so that every definition
reduces inside the kernel.
-/

/-- `leadsWith t s` is true when the token `t` occurs at the very start of
`s` (i.e. `s = t ++ _`).  This is the primitive all string reasoning in
this file is built from. -/
def leadsWith : List Char → List Char → Bool
  | [], _ => true
  | _ :: _, [] => false
  | a :: t, b :: s => a == b && leadsWith t s

/-- Decimal digit character, `digitChar d = '0' + d` (used for `d < 10`). -/
def digitChar (d : Nat) : Char := Char.ofNat (48 + d)

/-- Fuelled decimal rendering of a natural number (the embedding of
`std::to_string` for non-negative values). -/
def natToStringF : Nat → Nat → List Char
  | 0, _ => []
  | f + 1, n =>
    if n < 10 then [digitChar n]
    else natToStringF f (n / 10) ++ [digitChar (n % 10)]

/-- Decimal rendering of a natural number, the embedding of
`std::to_string` at the non-negative arguments the program uses. -/
def natToString (n : Nat) : List Char := natToStringF (n + 1) n

/-- Fuelled greedy scanner underlying `replaceAll`. -/
def replaceAllF (t r : List Char) : Nat → List Char → List Char
  | _, [] => []
  | 0, s => s
  | f + 1, c :: s =>
    if leadsWith t (c :: s) && !t.isEmpty then
      r ++ replaceAllF t r f (s.drop (t.length - 1))
    else
      c :: replaceAllF t r f s

/-- Greedy left-to-right replacement of every occurrence of `t` by `r`,
skipping past each inserted replacement — the result computed by the
source's `ReplaceString` (see `rsRun_eq_replaceAll` for the bridge to the
literal loop).  For the degenerate empty search token, on which the C++
loop never terminates, `replaceAll` is the identity. -/
def replaceAll (t r s : List Char) : List Char := replaceAllF t r s.length s

/-- Fuelled simultaneous two-token replacement (proof device used to show
that independent substitutions commute). -/
def replace2F (t1 r1 t2 r2 : List Char) : Nat → List Char → List Char
  | _, [] => []
  | 0, s => s
  | f + 1, c :: s =>
    if leadsWith t1 (c :: s) && !t1.isEmpty then
      r1 ++ replace2F t1 r1 t2 r2 f (s.drop (t1.length - 1))
    else if leadsWith t2 (c :: s) && !t2.isEmpty then
      r2 ++ replace2F t1 r1 t2 r2 f (s.drop (t2.length - 1))
    else
      c :: replace2F t1 r1 t2 r2 f s

/-- Simultaneous two-token replacement. -/
def replace2 (t1 r1 t2 r2 s : List Char) : List Char :=
  replace2F t1 r1 t2 r2 s.length s

/-- Placeholder substituted by the twiddle-angle literal (`"%a"` rendering
of `-M_PI / nButterflies`). -/
def tokAngle : List Char := "replace_MINUS_PI_over_N_GLOBAL_BUTTERFLIES".toList

/-- Placeholder substituted by the global butterfly count `N/2`. -/
def tokGlobal : List Char := "replace_N_GLOBAL_BUTTERFLIES".toList

/-- Placeholder substituted by the base-2 logarithm of the butterfly count. -/
def tokLog2 : List Char := "replace_LOG2_N_GLOBAL_BUTTERFLIES".toList

/-- Placeholder substituted by the per-thread butterfly count. -/
def tokLocal : List Char := "replace_N_LOCAL_BUTTERFLIES".toList

/-- Apply a list of (token, replacement) substitutions left to right. -/
def applySubsts (l : List (List Char × List Char)) (s : List Char) : List Char :=
  l.foldl (fun acc p => replaceAll p.1 p.2 acc) s

/-- The four substitutions of `ScopedKernel`'s template instantiation, in
the order the source applies them (innermost `ReplaceString` first):
angle literal, global butterfly count, its log2, per-thread count.
`angleBuf` is the `snprintf("%a", ...)` output; the two numeric values are
rendered with `natToString`. -/
def theFourSubsts (angleBuf : List Char) (nButterflies log2NB nButterfliesPerThread : Nat) :
    List (List Char × List Char) :=
  [(tokAngle, angleBuf),
   (tokGlobal, natToString nButterflies),
   (tokLog2, natToString log2NB),
   (tokLocal, natToString nButterfliesPerThread)]

/-- The template instantiation performed by `ScopedKernel`'s constructor:
the four nested `ReplaceString` calls of the source, innermost first. -/
def instantiateKernelSrc (kernel_src angleBuf : List Char)
    (nButterflies log2NB nButterfliesPerThread : Nat) : List Char :=
  replaceAll tokLocal (natToString nButterfliesPerThread)
    (replaceAll tokLog2 (natToString log2NB)
      (replaceAll tokGlobal (natToString nButterflies)
        (replaceAll tokAngle angleBuf kernel_src)))

/-- Whether token `t` occurs anywhere inside `s`. -/
def containsTok (t s : List Char) : Bool :=
  (List.range (s.length + 1)).any fun k => leadsWith t (s.drop k)

/-- Embedding of `std::string::find(search, pos)`: the least position
`p ≥ pos` at which `t` occurs in `s` (`none` plays the role of `npos`). -/
def strFindFrom (s t : List Char) : Nat → Nat → Option Nat
  | 0, _ => none
  | f + 1, pos =>
    if leadsWith t (s.drop pos) then some pos else strFindFrom s t f (pos + 1)

/-- `strFind s t pos` is `subject.find(search, pos)` of the source. -/
def strFind (s t : List Char) (pos : Nat) : Option Nat :=
  strFindFrom s t (s.length + 1 - pos) pos

/-- One iteration of `ReplaceString`'s while loop: state is
(current subject, scan position); `none` means `find` returned `npos` and
the loop exits. -/
def rsStep (t r : List Char) (st : List Char × Nat) : Option (List Char × Nat) :=
  match strFind st.1 t st.2 with
  | none => none
  | some p => some (st.1.take p ++ r ++ st.1.drop (p + t.length), p + r.length)

/-- Run `ReplaceString`'s loop for at most `n` iterations; `some out` means
the loop exited (returning subject `out`) within the fuel, `none` means it
was still running. -/
def rsRun (t r : List Char) : Nat → List Char × Nat → Option (List Char)
  | 0, _ => none
  | n + 1, st =>
    match rsStep t r st with
    | none => some st.1
    | some st' => rsRun t r n st'

/-- Embedding of `ScopedKernel`'s probing loop.  `wg i` is the
`CL_KERNEL_WORK_GROUP_SIZE` the device reports for the kernel compiled at
trial `i`; `p` is `nButterfliesPerThread`.  Returns the trial index and the
accepted per-thread count, or `none` if the fuel runs out (the source loop
has no iteration cap). -/
def proberRun (nButterflies : Nat) (wg : Nat → Nat) : Nat → Nat → Nat → Option (Nat × Nat)
  | 0, _, _ => none
  | fuel + 1, i, p =>
    if p * wg i < nButterflies then proberRun nButterflies wg fuel (i + 1) (nButterflies / wg i)
    else some (i, p)

/-- The whole constructor search: `nButterflies = input_size / 2`, starting
per-thread count 1 at trial 0. -/
def scopedKernelSearch (input_size : Nat) (wg : Nat → Nat) (fuel : Nat) : Option (Nat × Nat) :=
  proberRun (input_size / 2) wg fuel 0 1

/-- The per-thread count tried at trial `i` of the probing loop: 1
initially, and `nButterflies / wg i` after the capacity check fails at
trial `i`. -/
def proberTried (nButterflies : Nat) (wg : Nat → Nat) : Nat → Nat
  | 0 => 1
  | i + 1 => nButterflies / wg i

/-- `nIterations` of `withInput`. -/
def nIterations : Nat := 3000

/-- `nSkipIterations` of `withInput`. -/
def nSkipIterations : Nat := 5

/-- `global_item_size = input.size() / (2 * nButterfliesPerThread)`. -/
def global_item_size (input_size nButterfliesPerThread : Nat) : Nat :=
  input_size / (2 * nButterfliesPerThread)

/-- `local_item_size = global_item_size`. -/
def local_item_size (input_size nButterfliesPerThread : Nat) : Nat :=
  global_item_size input_size nButterfliesPerThread

/-- The (global, local) work sizes of every `clEnqueueNDRangeKernel` call
issued by `withInput`'s benchmarking loop, in order. -/
def benchEnqueues (input_size nButterfliesPerThread : Nat) : List (Nat × Nat) :=
  List.replicate (nSkipIterations + nIterations)
    (global_item_size input_size nButterfliesPerThread,
     local_item_size input_size nButterfliesPerThread)

/-- The `elapsed` accumulator after the benchmarking loop: for each
iteration `i` with `i ≥ nSkipIterations`, add the device-reported
`time_end - time_start` of that iteration (timestamps abstracted as
functions of `i`; the C++ `double` accumulator is modelled exactly). -/
def benchElapsed (tstart tend : Nat → Nat) : Nat :=
  ((List.range (nSkipIterations + nIterations)).filter fun i =>
      decide (nSkipIterations ≤ i)).foldl (fun acc i => acc + (tend i - tstart i)) 0

/-- The printed average: `(int)(elapsed / (double)nIterations) / 1000`,
i.e. the mean in nanoseconds truncated to an integer and then integer
division by 1000 to whole microseconds. -/
def benchReport (tstart tend : Nat → Nat) : Nat :=
  benchElapsed tstart tend / nIterations / 1000

/-- `sizeof(std::complex<float>)`. -/
def sizeof_complex_float : Nat := 8

/-- The quantity `withInput`'s precondition compares the device's
`CL_DEVICE_LOCAL_MEM_SIZE` against:
`2 * output.size() * sizeof(decltype(output[0]))` with
`output.size() = input.size()`. -/
def localMemRequired (input_size : Nat) : Nat :=
  2 * input_size * sizeof_complex_float

/-- The byte count `withInput` passes for kernel argument 2 (the local
memory scratch buffer): `2 * sizeof(float) * 2 * input.size()`. -/
def kernelLocalArgSize (input_size : Nat) : Nat :=
  2 * 4 * (2 * input_size)

/-- Observable actions of one `withInput` call, in program order. -/
inductive WithInputEvt where
  | reportNotEnoughLocalMem
  | createInputImage
  | createOutputImage
  | enqueueKernels
  | readOutput
  deriving DecidableEq

/-- Control-flow skeleton of `withInput`: if the device's local memory is
below `localMemRequired`, print the message and return `false` before any
image is created; otherwise create both images, run the benchmark loop,
read back the output and return `true`. -/
def withInputTrace (local_mem_sz input_size : Nat) : List WithInputEvt × Bool :=
  if local_mem_sz < localMemRequired input_size then
    ([WithInputEvt.reportNotEnoughLocalMem], false)
  else
    ([WithInputEvt.createInputImage, WithInputEvt.createOutputImage,
      WithInputEvt.enqueueKernels, WithInputEvt.readOutput], true)

/-- The sweep sizes of `main`: `for (sz = 8; sz < 10000000; sz *= 2)`. -/
def sweepSizesFrom : Nat → Nat → List Nat
  | 0, _ => []
  | f + 1, sz => if sz < 10000000 then sz :: sweepSizesFrom f (sz * 2) else []

/-- All sizes the sweep visits while `withInput` keeps succeeding. -/
def sweepSizes : List Nat := sweepSizesFrom 32 8

/-- The sizes for which `main`'s loop completes a full iteration: the loop
body `break`s out the first time `withInput` returns `false`, leaving the
results of all earlier sizes in place. -/
def driverCompleted (local_mem_sz : Nat) : List Nat :=
  sweepSizes.takeWhile fun sz => (withInputTrace local_mem_sz sz).2

/-- One call to the element-wise comparison collaborator
`verifyVectorsAreEqual`: which two vectors are compared, and with which
absolute tolerance. -/
structure VerifyCall where
  lhs : String
  rhs : String
  tolerance : ℚ

/-- Modelled from the spec: the comparison collaborator
`verifyVectorsAreEqual` is declared outside `src/` (only its two call
sites are in `withInput`), so the value of its defaulted tolerance
parameter is not visible; per the spec both verification checks use the
same fixed absolute tolerance, and that fixed tolerance is 0.01, so the
default is modelled as `1/100`. -/
def verifyVectorsDefaultTolerance : ℚ := 1 / 100

/-- The self-consistency check (source line 47): reference transform of the
input against the iterative transform of the bit-reversed input, compared
with `verifyVectorsAreEqual`'s default tolerance (no third argument is
passed). -/
def verifyCall1 : VerifyCall :=
  { lhs := "makeRefForwardFft input"
  , rhs := "cpu_fft_norecursion of bitReversePermutation of input"
  , tolerance := verifyVectorsDefaultTolerance }

/-- The device-result check (source lines 140-150): device output against
the reference transform of the original input, with the explicit literal
tolerance `0.01f`. -/
def verifyCall2 : VerifyCall :=
  { lhs := "output read back from the device"
  , rhs := "makeRefForwardFft input"
  , tolerance := 1 / 100 }

/-- Tokens `t1` and `t2` cannot overlap in any subject: `t1` never occurs
inside `t2`, and no nonempty proper tail of `t2` starts `t1`. -/
def SepTok (t1 t2 : List Char) : Prop :=
  (∀ k, k < t2.length → leadsWith t1 (t2.drop k) = false) ∧
  (∀ j, 1 ≤ j → j < t2.length → leadsWith (t2.drop j) t1 = false)

/-- Inserting the replacement text `r1` can never take part in an
occurrence of the token `t2`: no nonempty tail of `r1` starts `t2`, no
nonempty proper tail of `t2` starts `r1`, `r1` does not occur inside `t2`
at a positive offset, and `t2` does not occur inside `r1`. -/
def NoTouch (r1 t2 : List Char) : Prop :=
  (∀ j, j < r1.length → leadsWith (r1.drop j) t2 = false) ∧
  (∀ j, 1 ≤ j → j < t2.length → leadsWith (t2.drop j) r1 = false) ∧
  (∀ k, 1 ≤ k → k < t2.length → leadsWith r1 (t2.drop k) = false) ∧
  (∀ k, k < r1.length → leadsWith t2 (r1.drop k) = false)

/-- Two substitutions commute as functions on subjects. -/
def SubstComm (p q : List Char × List Char) : Prop :=
  ∀ s, replaceAll q.1 q.2 (replaceAll p.1 p.2 s) = replaceAll p.1 p.2 (replaceAll q.1 q.2 s)

/-- No two consecutive characters of the list are both decimal digits. -/
def pairsOk : List Char → Bool
  | [] => true
  | [_] => true
  | a :: b :: rest => !(a.isDigit && b.isDigit) && pairsOk (b :: rest)

/-- Every decimal digit occurring in the list is the digit 2. -/
def digits2 (l : List Char) : Bool :=
  l.all fun c => !c.isDigit || c == '2'

/-- A nonempty all-digit string (the shape of every `natToString` value). -/
def DigitStr (d : List Char) : Prop :=
  d ≠ [] ∧ ∀ c ∈ d, c.isDigit = true

/-! ### Basic facts about `leadsWith` -/

theorem leadsWith_iff (t : List Char) : ∀ s, leadsWith t s = true ↔ ∃ u, s = t ++ u := by
  induction t with
  | nil => intro s; simp [leadsWith]
  | cons a t ih =>
    intro s
    cases s with
    | nil => simp [leadsWith]
    | cons b s =>
      simp only [leadsWith, Bool.and_eq_true, beq_iff_eq, ih, List.cons_append, List.cons.injEq]
      constructor
      · rintro ⟨rfl, u, rfl⟩; exact ⟨u, rfl, rfl⟩
      · rintro ⟨u, rfl, rfl⟩; exact ⟨rfl, u, rfl⟩

theorem leadsWith_length_le {t s : List Char} (h : leadsWith t s = true) :
    t.length ≤ s.length := by
  obtain ⟨u, rfl⟩ := (leadsWith_iff t s).1 h
  simp

theorem leadsWith_append_self (t u : List Char) : leadsWith t (t ++ u) = true :=
  (leadsWith_iff t (t ++ u)).2 ⟨u, rfl⟩

theorem leadsWith_of_append_le {t v w : List Char} (h : leadsWith t (v ++ w) = true)
    (hl : t.length ≤ v.length) : leadsWith t v = true := by
  obtain ⟨u, hu⟩ := (leadsWith_iff t (v ++ w)).1 h
  have ht : v.take t.length = t := by
    have h1 : (v ++ w).take t.length = v.take t.length :=
      List.take_append_of_le_length hl
    rw [hu, List.take_left] at h1
    exact h1.symm
  refine (leadsWith_iff t v).2 ⟨v.drop t.length, ?_⟩
  conv_lhs => rw [← List.take_append_drop t.length v]
  rw [ht]

theorem append_leadsWith {t v w : List Char} (h : leadsWith t (v ++ w) = true)
    (hl : v.length ≤ t.length) : leadsWith v t = true := by
  obtain ⟨u, hu⟩ := (leadsWith_iff t (v ++ w)).1 h
  have ht : t.take v.length = v := by
    have h1 : (t ++ u).take v.length = t.take v.length :=
      List.take_append_of_le_length hl
    rw [← hu, List.take_left] at h1
    exact h1.symm
  refine (leadsWith_iff v t).2 ⟨t.drop v.length, ?_⟩
  conv_lhs => rw [← List.take_append_drop v.length t]
  rw [ht]

theorem mem_of_leadsWith {t s : List Char} {c : Char} (h : leadsWith t s = true)
    (hc : c ∈ t) : c ∈ s := by
  obtain ⟨u, rfl⟩ := (leadsWith_iff t s).1 h
  exact List.mem_append_left u hc

theorem leadsWith_nil_of_ne {t : List Char} (ht : t ≠ []) : leadsWith t [] = false := by
  cases t with
  | nil => exact absurd rfl ht
  | cons a t => rfl

/-! ### Unfolding equations for `replaceAll` -/

theorem replaceAllF_congr (t r : List Char) :
    ∀ k s, s.length ≤ k → ∀ n m, s.length ≤ n → s.length ≤ m →
      replaceAllF t r n s = replaceAllF t r m s := by
  intro k
  induction k with
  | zero =>
    intro s hs n m _ _
    have hnil : s = [] := List.eq_nil_of_length_eq_zero (Nat.le_zero.mp hs)
    subst hnil
    cases n <;> cases m <;> rfl
  | succ k ih =>
    intro s hs n m hn hm
    cases s with
    | nil => cases n <;> cases m <;> rfl
    | cons c s =>
      cases n with
      | zero => simp at hn
      | succ n =>
        cases m with
        | zero => simp at hm
        | succ m =>
          simp only [replaceAllF]
          have hs' : s.length ≤ k := by simpa using hs
          have hn' : s.length ≤ n := by simpa using hn
          have hm' : s.length ≤ m := by simpa using hm
          by_cases hcond : (leadsWith t (c :: s) && !t.isEmpty) = true
          · rw [if_pos hcond, if_pos hcond]
            have hd : (s.drop (t.length - 1)).length ≤ k := by
              simp only [List.length_drop]; omega
            have hdn : (s.drop (t.length - 1)).length ≤ n := by
              simp only [List.length_drop]; omega
            have hdm : (s.drop (t.length - 1)).length ≤ m := by
              simp only [List.length_drop]; omega
            rw [ih _ hd n m hdn hdm]
          · rw [if_neg hcond, if_neg hcond, ih s hs' n m hn' hm']

theorem replaceAll_nil (t r : List Char) : replaceAll t r [] = [] := rfl

theorem replaceAll_cons (t r : List Char) (c : Char) (s : List Char) :
    replaceAll t r (c :: s) =
      if leadsWith t (c :: s) && !t.isEmpty then r ++ replaceAll t r (s.drop (t.length - 1))
      else c :: replaceAll t r s := by
  show replaceAllF t r (s.length + 1) (c :: s) = _
  simp only [replaceAllF]
  by_cases hcond : (leadsWith t (c :: s) && !t.isEmpty) = true
  · rw [if_pos hcond, if_pos hcond]
    have : replaceAllF t r s.length (s.drop (t.length - 1)) =
        replaceAllF t r (s.drop (t.length - 1)).length (s.drop (t.length - 1)) :=
      replaceAllF_congr t r s.length _ (by simp only [List.length_drop]; omega) _ _
        (by simp only [List.length_drop]; omega) (le_refl _)
    rw [this]; rfl
  · rw [if_neg hcond, if_neg hcond]; rfl

theorem replaceAll_pos (t r s : List Char) (ht : t ≠ []) (h : leadsWith t s = true) :
    replaceAll t r s = r ++ replaceAll t r (s.drop t.length) := by
  cases s with
  | nil => rw [leadsWith_nil_of_ne ht] at h; exact absurd h (by simp)
  | cons c s =>
    rw [replaceAll_cons]
    have hne : t.isEmpty = false := by
      cases t with
      | nil => exact absurd rfl ht
      | cons a t => rfl
    have hdrop : (c :: s).drop t.length = s.drop (t.length - 1) := by
      cases t with
      | nil => exact absurd rfl ht
      | cons a t => simp
    rw [if_pos (by rw [h, hne]; rfl), hdrop]

theorem replaceAll_neg (t r : List Char) (c : Char) (s : List Char)
    (h : leadsWith t (c :: s) = false) :
    replaceAll t r (c :: s) = c :: replaceAll t r s := by
  rw [replaceAll_cons, if_neg (by rw [h]; simp)]

theorem replaceAll_append_untouched (t r : List Char) :
    ∀ a b, (∀ k, k < a.length → leadsWith t (a.drop k ++ b) = false) →
      replaceAll t r (a ++ b) = a ++ replaceAll t r b := by
  intro a
  induction a with
  | nil => intro b _; simp
  | cons c a ih =>
    intro b h
    have h0 : leadsWith t (c :: (a ++ b)) = false := by
      have := h 0 (by simp)
      simpa using this
    have hrest : ∀ k, k < a.length → leadsWith t (a.drop k ++ b) = false := by
      intro k hk
      have := h (k + 1) (by simp only [List.length_cons]; omega)
      simpa using this
    rw [List.cons_append, replaceAll_neg t r c (a ++ b) h0, ih b hrest]
    rfl

theorem replaceAll_of_no_occurrence (t r s : List Char)
    (h : ∀ k, k < s.length → leadsWith t (s.drop k) = false) : replaceAll t r s = s := by
  have := replaceAll_append_untouched t r s [] (by intro k hk; simpa using h k hk)
  simpa [replaceAll_nil] using this

theorem not_lead_of_containsTok_false {t s : List Char} (h : containsTok t s = false) :
    ∀ k, k < s.length → leadsWith t (s.drop k) = false := by
  intro k hk
  by_contra hcon
  have hcon' : leadsWith t (s.drop k) = true := by
    cases hl : leadsWith t (s.drop k) with
    | false => exact absurd hl hcon
    | true => rfl
  have : containsTok t s = true := by
    simp only [containsTok, List.any_eq_true, List.mem_range]
    exact ⟨k, by omega, hcon'⟩
  rw [this] at h
  exact absurd h (by simp)

/-! ### Unfolding equations for `replace2` -/

theorem replace2F_congr (t1 r1 t2 r2 : List Char) :
    ∀ k s, s.length ≤ k → ∀ n m, s.length ≤ n → s.length ≤ m →
      replace2F t1 r1 t2 r2 n s = replace2F t1 r1 t2 r2 m s := by
  intro k
  induction k with
  | zero =>
    intro s hs n m _ _
    have hnil : s = [] := List.eq_nil_of_length_eq_zero (Nat.le_zero.mp hs)
    subst hnil
    cases n <;> cases m <;> rfl
  | succ k ih =>
    intro s hs n m hn hm
    cases s with
    | nil => cases n <;> cases m <;> rfl
    | cons c s =>
      cases n with
      | zero => simp at hn
      | succ n =>
        cases m with
        | zero => simp at hm
        | succ m =>
          simp only [replace2F]
          have hs' : s.length ≤ k := by simpa using hs
          have hn' : s.length ≤ n := by simpa using hn
          have hm' : s.length ≤ m := by simpa using hm
          by_cases hc1 : (leadsWith t1 (c :: s) && !t1.isEmpty) = true
          · rw [if_pos hc1, if_pos hc1,
              ih _ (by simp only [List.length_drop]; omega) n m
                (by simp only [List.length_drop]; omega)
                (by simp only [List.length_drop]; omega)]
          · rw [if_neg hc1, if_neg hc1]
            by_cases hc2 : (leadsWith t2 (c :: s) && !t2.isEmpty) = true
            · rw [if_pos hc2, if_pos hc2,
                ih _ (by simp only [List.length_drop]; omega) n m
                  (by simp only [List.length_drop]; omega)
                  (by simp only [List.length_drop]; omega)]
            · rw [if_neg hc2, if_neg hc2, ih s hs' n m hn' hm']

theorem replace2_cons (t1 r1 t2 r2 : List Char) (c : Char) (s : List Char) :
    replace2 t1 r1 t2 r2 (c :: s) =
      if leadsWith t1 (c :: s) && !t1.isEmpty then
        r1 ++ replace2 t1 r1 t2 r2 (s.drop (t1.length - 1))
      else if leadsWith t2 (c :: s) && !t2.isEmpty then
        r2 ++ replace2 t1 r1 t2 r2 (s.drop (t2.length - 1))
      else c :: replace2 t1 r1 t2 r2 s := by
  show replace2F t1 r1 t2 r2 (s.length + 1) (c :: s) = _
  simp only [replace2F]
  by_cases hc1 : (leadsWith t1 (c :: s) && !t1.isEmpty) = true
  · rw [if_pos hc1, if_pos hc1,
      replace2F_congr t1 r1 t2 r2 s.length _ (by simp only [List.length_drop]; omega) _ _
        (by simp only [List.length_drop]; omega) (le_refl _)]
    rfl
  · rw [if_neg hc1, if_neg hc1]
    by_cases hc2 : (leadsWith t2 (c :: s) && !t2.isEmpty) = true
    · rw [if_pos hc2, if_pos hc2,
        replace2F_congr t1 r1 t2 r2 s.length _ (by simp only [List.length_drop]; omega) _ _
          (by simp only [List.length_drop]; omega) (le_refl _)]
      rfl
    · rw [if_neg hc2, if_neg hc2]
      rfl

theorem isEmpty_false_of_ne {t : List Char} (ht : t ≠ []) : t.isEmpty = false := by
  cases t with
  | nil => exact absurd rfl ht
  | cons a t => rfl

theorem drop_cons_of_ne {t : List Char} (ht : t ≠ []) (c : Char) (s : List Char) :
    (c :: s).drop t.length = s.drop (t.length - 1) := by
  cases t with
  | nil => exact absurd rfl ht
  | cons a t => simp

theorem replace2_pos1 (t1 r1 t2 r2 : List Char) {s : List Char} (ht1 : t1 ≠ [])
    (hl : leadsWith t1 s = true) :
    replace2 t1 r1 t2 r2 s = r1 ++ replace2 t1 r1 t2 r2 (s.drop t1.length) := by
  cases s with
  | nil => rw [leadsWith_nil_of_ne ht1] at hl; exact absurd hl (by simp)
  | cons c s =>
    rw [replace2_cons, if_pos (by rw [hl, isEmpty_false_of_ne ht1]; rfl),
      drop_cons_of_ne ht1]

theorem replace2_pos2 (t1 r1 t2 r2 : List Char) {s : List Char} (ht2 : t2 ≠ [])
    (hl1 : leadsWith t1 s = false) (hl2 : leadsWith t2 s = true) :
    replace2 t1 r1 t2 r2 s = r2 ++ replace2 t1 r1 t2 r2 (s.drop t2.length) := by
  cases s with
  | nil => rw [leadsWith_nil_of_ne ht2] at hl2; exact absurd hl2 (by simp)
  | cons c s =>
    rw [replace2_cons, if_neg (by rw [hl1]; simp),
      if_pos (by rw [hl2, isEmpty_false_of_ne ht2]; rfl), drop_cons_of_ne ht2]

theorem replace2_neg (t1 r1 t2 r2 : List Char) (c : Char) (s : List Char)
    (hl1 : leadsWith t1 (c :: s) = false) (hl2 : leadsWith t2 (c :: s) = false) :
    replace2 t1 r1 t2 r2 (c :: s) = c :: replace2 t1 r1 t2 r2 s := by
  rw [replace2_cons, if_neg (by rw [hl1]; simp), if_neg (by rw [hl2]; simp)]

/-! ### Substituting one token never creates a fresh occurrence of an
independent token (the heart of the commutation proof) -/

theorem leadsWith_replaceAll_false (t1 r1 t2 : List Char)
    (ht1 : t1 ≠ []) (hr1 : r1 ≠ []) (nt : NoTouch r1 t2) :
    ∀ n s, s.length ≤ n → ∀ j, j < t2.length →
      leadsWith (t2.drop j) s = false → leadsWith (t2.drop j) (replaceAll t1 r1 s) = false := by
  obtain ⟨nt1, nt2, nt3, nt4⟩ := nt
  have hr1len : 0 < r1.length := List.length_pos.mpr hr1
  intro n
  induction n with
  | zero =>
    intro s hs j hj h
    have hnil : s = [] := List.eq_nil_of_length_eq_zero (Nat.le_zero.mp hs)
    subst hnil
    rw [replaceAll_nil]
    exact h
  | succ n ih =>
    intro s hs j hj h
    cases s with
    | nil => rw [replaceAll_nil]; exact h
    | cons c s =>
      by_cases hl : leadsWith t1 (c :: s) = true
      · rw [replaceAll_pos t1 r1 (c :: s) ht1 hl]
        cases hx : leadsWith (t2.drop j) (r1 ++ replaceAll t1 r1 ((c :: s).drop t1.length)) with
        | false => rfl
        | true =>
          exfalso
          rcases le_or_lt (t2.drop j).length r1.length with hle | hlt
          · have hlead : leadsWith (t2.drop j) r1 = true := leadsWith_of_append_le hx hle
            rcases Nat.eq_zero_or_pos j with rfl | hj1
            · have h4 := nt4 0 hr1len
              rw [List.drop_zero] at h4 hlead
              rw [h4] at hlead
              exact Bool.false_ne_true hlead
            · have h2 := nt2 j hj1 hj
              rw [h2] at hlead
              exact Bool.false_ne_true hlead
          · have hlead : leadsWith r1 (t2.drop j) = true := append_leadsWith hx (le_of_lt hlt)
            rcases Nat.eq_zero_or_pos j with rfl | hj1
            · have h1 := nt1 0 hr1len
              rw [List.drop_zero] at h1 hlead
              rw [h1] at hlead
              exact Bool.false_ne_true hlead
            · have h3 := nt3 j hj1 hj
              rw [h3] at hlead
              exact Bool.false_ne_true hlead
      · have hl' : leadsWith t1 (c :: s) = false := by
          cases hy : leadsWith t1 (c :: s) with
          | false => rfl
          | true => exact absurd hy hl
        rw [replaceAll_neg t1 r1 c s hl']
        cases hu : t2.drop j with
        | nil =>
          exfalso
          have hlen : (t2.drop j).length = t2.length - j := List.length_drop j t2
          rw [hu] at hlen
          simp at hlen
          omega
        | cons d u =>
          rw [hu] at h
          simp only [leadsWith] at h ⊢
          by_cases hdc : (d == c) = true
          · rw [hdc, Bool.true_and] at h ⊢
            have hu' : u = t2.drop (j + 1) := by
              have h1 : (t2.drop j).drop 1 = t2.drop (j + 1) := by
                rw [List.drop_drop]
              rw [hu] at h1
              simpa using h1
            cases u with
            | nil => simp [leadsWith] at h
            | cons e u' =>
              have hj' : j + 1 < t2.length := by
                have hlen : (t2.drop (j + 1)).length = t2.length - (j + 1) :=
                  List.length_drop _ _
                rw [← hu'] at hlen
                simp only [List.length_cons] at hlen
                omega
              have hres := ih s (by simp only [List.length_cons] at hs; omega) (j + 1) hj'
                (by rw [← hu']; exact h)
              rw [hu']
              exact hres
          · have hdc' : (d == c) = false := by
              cases hz : (d == c) with
              | false => rfl
              | true => exact absurd hz hdc
            rw [hdc', Bool.false_and]

/-! ### Replacing two independent tokens one after the other equals the
simultaneous replacement, hence the two orders agree -/

theorem seq_eq_replace2 (t1 r1 t2 r2 : List Char)
    (ht1 : t1 ≠ []) (ht2 : t2 ≠ []) (hr1 : r1 ≠ [])
    (sep : SepTok t1 t2) (nt : NoTouch r1 t2) :
    ∀ n s, s.length ≤ n →
      replaceAll t2 r2 (replaceAll t1 r1 s) = replace2 t1 r1 t2 r2 s := by
  obtain ⟨sep1, sep2⟩ := sep
  obtain ⟨nt1, nt2, nt3, nt4⟩ := nt
  have ht2len : 0 < t2.length := List.length_pos.mpr ht2
  have ht1len : 0 < t1.length := List.length_pos.mpr ht1
  intro n
  induction n with
  | zero =>
    intro s hs
    have hnil : s = [] := List.eq_nil_of_length_eq_zero (Nat.le_zero.mp hs)
    subst hnil
    rw [replaceAll_nil, replaceAll_nil]
    rfl
  | succ n ih =>
    intro s hs
    by_cases hl1 : leadsWith t1 s = true
    · obtain ⟨s2, rfl⟩ := (leadsWith_iff t1 s).1 hl1
      rw [replaceAll_pos t1 r1 _ ht1 hl1, List.drop_left]
      have hskip : ∀ k, k < r1.length →
          leadsWith t2 (r1.drop k ++ replaceAll t1 r1 s2) = false := by
        intro k hk
        cases hx : leadsWith t2 (r1.drop k ++ replaceAll t1 r1 s2) with
        | false => rfl
        | true =>
          exfalso
          rcases le_or_lt t2.length (r1.drop k).length with hle | hlt
          · have hlead := leadsWith_of_append_le hx hle
            have h4 := nt4 k hk
            rw [h4] at hlead
            exact Bool.false_ne_true hlead
          · have hlead := append_leadsWith hx (le_of_lt hlt)
            have h1 := nt1 k hk
            rw [h1] at hlead
            exact Bool.false_ne_true hlead
      rw [replaceAll_append_untouched t2 r2 r1 _ hskip]
      have hlen : s2.length ≤ n := by
        simp only [List.length_append] at hs
        omega
      rw [ih s2 hlen, replace2_pos1 t1 r1 t2 r2 ht1 hl1, List.drop_left]
    · have hl1' : leadsWith t1 s = false := by
        cases hy : leadsWith t1 s with
        | false => rfl
        | true => exact absurd hy hl1
      by_cases hl2 : leadsWith t2 s = true
      · obtain ⟨s2, rfl⟩ := (leadsWith_iff t2 s).1 hl2
        have hwalk : ∀ k, k < t2.length → leadsWith t1 (t2.drop k ++ s2) = false := by
          intro k hk
          rcases Nat.eq_zero_or_pos k with rfl | hk1
          · rw [List.drop_zero]; exact hl1'
          · cases hx : leadsWith t1 (t2.drop k ++ s2) with
            | false => rfl
            | true =>
              exfalso
              rcases le_or_lt t1.length (t2.drop k).length with hle | hlt
              · have hlead := leadsWith_of_append_le hx hle
                have hsep := sep1 k hk
                rw [hsep] at hlead
                exact Bool.false_ne_true hlead
              · have hlead := append_leadsWith hx (le_of_lt hlt)
                have hsep := sep2 k hk1 hk
                rw [hsep] at hlead
                exact Bool.false_ne_true hlead
        rw [replaceAll_append_untouched t1 r1 t2 s2 hwalk,
          replaceAll_pos t2 r2 _ ht2 (leadsWith_append_self t2 _), List.drop_left]
        have hlen : s2.length ≤ n := by
          simp only [List.length_append] at hs
          omega
        rw [ih s2 hlen, replace2_pos2 t1 r1 t2 r2 ht2 hl1' hl2, List.drop_left]
      · have hl2' : leadsWith t2 s = false := by
          cases hy : leadsWith t2 s with
          | false => rfl
          | true => exact absurd hy hl2
        cases s with
        | nil => rw [replaceAll_nil, replaceAll_nil]; rfl
        | cons c s =>
          rw [replaceAll_neg t1 r1 c s hl1']
          have hout : leadsWith t2 (c :: replaceAll t1 r1 s) = false := by
            have hP := leadsWith_replaceAll_false t1 r1 t2 ht1 hr1 ⟨nt1, nt2, nt3, nt4⟩
              (s.length + 1) (c :: s) (by simp) 0 ht2len
              (by rw [List.drop_zero]; exact hl2')
            rw [List.drop_zero, replaceAll_neg t1 r1 c s hl1'] at hP
            exact hP
          rw [replaceAll_neg t2 r2 c _ hout]
          have hlen : s.length ≤ n := by
            simp only [List.length_cons] at hs
            omega
          rw [ih s hlen, replace2_neg t1 r1 t2 r2 c s hl1' hl2']

theorem replace2_comm_aux (t1 r1 t2 r2 : List Char)
    (ht1 : t1 ≠ []) (ht2 : t2 ≠ [])
    (hnb : ∀ u, leadsWith t1 u = true → leadsWith t2 u = true → False) :
    ∀ n s, s.length ≤ n → replace2 t1 r1 t2 r2 s = replace2 t2 r2 t1 r1 s := by
  have ht1len : 0 < t1.length := List.length_pos.mpr ht1
  have ht2len : 0 < t2.length := List.length_pos.mpr ht2
  intro n
  induction n with
  | zero =>
    intro s hs
    have hnil : s = [] := List.eq_nil_of_length_eq_zero (Nat.le_zero.mp hs)
    subst hnil
    rfl
  | succ n ih =>
    intro s hs
    cases s with
    | nil => rfl
    | cons c s =>
      by_cases hl1 : leadsWith t1 (c :: s) = true
      · have hl2 : leadsWith t2 (c :: s) = false := by
          cases hx : leadsWith t2 (c :: s) with
          | false => rfl
          | true => exact (hnb _ hl1 hx).elim
        rw [replace2_pos1 t1 r1 t2 r2 ht1 hl1, replace2_pos2 t2 r2 t1 r1 ht1 hl2 hl1]
        exact congrArg (r1 ++ ·) (ih _ (by simp only [List.length_drop, List.length_cons] at hs ⊢; omega))
      · have hl1' : leadsWith t1 (c :: s) = false := by
          cases hy : leadsWith t1 (c :: s) with
          | false => rfl
          | true => exact absurd hy hl1
        by_cases hl2 : leadsWith t2 (c :: s) = true
        · rw [replace2_pos2 t1 r1 t2 r2 ht2 hl1' hl2, replace2_pos1 t2 r2 t1 r1 ht2 hl2]
          exact congrArg (r2 ++ ·) (ih _ (by simp only [List.length_drop, List.length_cons] at hs ⊢; omega))
        · have hl2' : leadsWith t2 (c :: s) = false := by
            cases hy : leadsWith t2 (c :: s) with
            | false => rfl
            | true => exact absurd hy hl2
          rw [replace2_neg t1 r1 t2 r2 c s hl1' hl2', replace2_neg t2 r2 t1 r1 c s hl2' hl1']
          exact congrArg (c :: ·) (ih s (by simp only [List.length_cons] at hs; omega))

theorem replaceAll_comm (t1 r1 t2 r2 : List Char)
    (ht1 : t1 ≠ []) (ht2 : t2 ≠ []) (hr1 : r1 ≠ []) (hr2 : r2 ≠ [])
    (hsep12 : SepTok t1 t2) (hsep21 : SepTok t2 t1)
    (nt12 : NoTouch r1 t2) (nt21 : NoTouch r2 t1) (s : List Char) :
    replaceAll t2 r2 (replaceAll t1 r1 s) = replaceAll t1 r1 (replaceAll t2 r2 s) := by
  have hnb : ∀ u, leadsWith t1 u = true → leadsWith t2 u = true → False := by
    intro u h1 h2
    rcases le_or_lt t1.length t2.length with hle | hlt
    · obtain ⟨w, rfl⟩ := (leadsWith_iff t2 u).1 h2
      have h3 := leadsWith_of_append_le h1 hle
      have h4 := hsep12.1 0 (List.length_pos.mpr ht2)
      rw [List.drop_zero] at h4
      rw [h4] at h3
      exact Bool.false_ne_true h3
    · obtain ⟨w, rfl⟩ := (leadsWith_iff t1 u).1 h1
      have h3 := leadsWith_of_append_le h2 (le_of_lt hlt)
      have h4 := hsep21.1 0 (List.length_pos.mpr ht1)
      rw [List.drop_zero] at h4
      rw [h4] at h3
      exact Bool.false_ne_true h3
  rw [seq_eq_replace2 t1 r1 t2 r2 ht1 ht2 hr1 ⟨hsep12.1, hsep12.2⟩ ⟨nt12.1, nt12.2.1, nt12.2.2.1, nt12.2.2.2⟩ s.length s (le_refl _),
    seq_eq_replace2 t2 r2 t1 r1 ht2 ht1 hr2 ⟨hsep21.1, hsep21.2⟩ ⟨nt21.1, nt21.2.1, nt21.2.2.1, nt21.2.2.2⟩ s.length s (le_refl _),
    replace2_comm_aux t1 r1 t2 r2 ht1 ht2 hnb s.length s (le_refl _)]

/-! ### Properties of `natToString` -/

theorem natToStringF_congr : ∀ f n, n < f → ∀ f', n < f' → natToStringF f n = natToStringF f' n := by
  intro f
  induction f with
  | zero => intro n h; exact absurd h (Nat.not_lt_zero n)
  | succ f ih =>
    intro n hn f' hf'
    cases f' with
    | zero => exact absurd hf' (Nat.not_lt_zero n)
    | succ f' =>
      simp only [natToStringF]
      by_cases h10 : n < 10
      · rw [if_pos h10, if_pos h10]
      · have hd : n / 10 < n := Nat.div_lt_self (by omega) (by omega)
        rw [if_neg h10, if_neg h10, ih (n / 10) (by omega) f' (by omega)]

theorem natToStringF_ne_nil : ∀ f n, n < f → natToStringF f n ≠ [] := by
  intro f n hn
  cases f with
  | zero => exact absurd hn (Nat.not_lt_zero n)
  | succ f =>
    simp only [natToStringF]
    by_cases h10 : n < 10
    · rw [if_pos h10]; simp
    · rw [if_neg h10]; simp

theorem natToString_ne_nil (n : Nat) : natToString n ≠ [] :=
  natToStringF_ne_nil (n + 1) n (by omega)

theorem digitChar_isDigit {d : Nat} (h : d < 10) : (digitChar d).isDigit = true := by
  interval_cases d <;> decide

theorem natToStringF_digits : ∀ f n, n < f → ∀ c ∈ natToStringF f n, c.isDigit = true := by
  intro f
  induction f with
  | zero => intro n h; exact absurd h (Nat.not_lt_zero n)
  | succ f ih =>
    intro n hn c hc
    simp only [natToStringF] at hc
    by_cases h10 : n < 10
    · rw [if_pos h10] at hc
      simp only [List.mem_singleton] at hc
      subst hc
      exact digitChar_isDigit h10
    · rw [if_neg h10] at hc
      have hd : n / 10 < n := Nat.div_lt_self (by omega) (by omega)
      rcases List.mem_append.mp hc with h1 | h2
      · exact ih (n / 10) (by omega) c h1
      · simp only [List.mem_singleton] at h2
        subst h2
        exact digitChar_isDigit (Nat.mod_lt n (by omega))

theorem natToString_digitStr (n : Nat) : DigitStr (natToString n) :=
  ⟨natToString_ne_nil n, fun c hc => natToStringF_digits (n + 1) n (by omega) c hc⟩

theorem natToString_eq_two {n : Nat} (h : natToString n = ['2']) : n = 2 := by
  unfold natToString at h
  by_cases h10 : n < 10
  · simp only [natToStringF, if_pos h10] at h
    have hdc : digitChar n = '2' := by simpa using h
    interval_cases n <;> revert hdc <;> decide
  · exfalso
    simp only [natToStringF, if_neg h10] at h
    have hlen := congrArg List.length h
    simp only [List.length_append, List.length_singleton, List.length_cons,
      List.length_nil] at hlen
    have hnil : natToStringF n (n / 10) = [] :=
      List.eq_nil_of_length_eq_zero (by omega)
    have hd : n / 10 < n := Nat.div_lt_self (by omega) (by omega)
    exact natToStringF_ne_nil n (n / 10) (by omega) hnil

theorem natToString_ne_two {n : Nat} (h : n ≠ 2) : natToString n ≠ ['2'] :=
  fun hc => h (natToString_eq_two hc)

/-! ### Generic `NoTouch` facts for digit-string values and for the
hex-float angle literal -/

theorem leadsWith_heads {x y : Char} {xs ys : List Char}
    (h : leadsWith (x :: xs) (y :: ys) = true) : x = y := by
  simp only [leadsWith, Bool.and_eq_true, beq_iff_eq] at h
  exact h.1

theorem drop_ne_nil_of_lt {l : List Char} {k : Nat} (h : k < l.length) : l.drop k ≠ [] := by
  intro hc
  have hlen := List.length_drop k l
  rw [hc] at hlen
  simp only [List.length_nil] at hlen
  omega

theorem leadsWith_head_eq {u v : List Char} (hu : u ≠ []) (h : leadsWith u v = true) :
    ∃ c u' v', u = c :: u' ∧ v = c :: v' := by
  cases u with
  | nil => exact absurd rfl hu
  | cons x xs =>
    cases v with
    | nil =>
      rw [leadsWith_nil_of_ne (by simp)] at h
      exact absurd h (by simp)
    | cons y ys =>
      have hxy := leadsWith_heads h
      exact ⟨x, xs, ys, rfl, by rw [hxy]⟩

theorem pairsOk_drop : ∀ (u : List Char) (k : Nat), pairsOk u = true → pairsOk (u.drop k) = true := by
  intro u
  induction u with
  | nil => intro k h; simpa using h
  | cons a u ih =>
    intro k h
    cases k with
    | zero => simpa using h
    | succ k =>
      simp only [List.drop_succ_cons]
      apply ih
      cases u with
      | nil => rfl
      | cons b u' =>
        simp only [pairsOk, Bool.and_eq_true] at h
        exact h.2

theorem digits2_drop (u : List Char) (k : Nat) (h : digits2 u = true) :
    digits2 (u.drop k) = true := by
  simp only [digits2, List.all_eq_true] at h ⊢
  intro c hc
  exact h c (List.mem_of_mem_drop hc)

theorem not_leadsWith_digits {d : List Char} (hd : DigitStr d) (hne2 : d ≠ ['2']) :
    ∀ u, pairsOk u = true → digits2 u = true → leadsWith d u = false := by
  intro u hp h2
  cases hx : leadsWith d u with
  | false => rfl
  | true =>
    exfalso
    obtain ⟨hdnil, hdig⟩ := hd
    cases d with
    | nil => exact hdnil rfl
    | cons c d' =>
      obtain ⟨u', rfl⟩ := (leadsWith_iff _ u).1 hx
      have hcdig : c.isDigit = true := hdig c (by simp)
      have hc2 : c = '2' := by
        have h2c := (List.all_eq_true.mp h2) c (by simp)
        rw [hcdig] at h2c
        simpa using h2c
      cases d' with
      | nil => exact hne2 (by rw [hc2])
      | cons e d'' =>
        have hedig : e.isDigit = true := hdig e (by simp)
        have hpp : pairsOk (c :: e :: (d'' ++ u')) = true := by
          simpa using hp
        simp only [pairsOk, Bool.and_eq_true] at hpp
        obtain ⟨hno, -⟩ := hpp
        rw [hcdig, hedig] at hno
        simp at hno

theorem noTouch_digits {d T : List Char} (hd : DigitStr d) (hne2 : d ≠ ['2'])
    (hhead : ∃ c T', T = c :: T' ∧ c.isDigit = false)
    (hpairs : pairsOk (T.drop 1) = true) (h2s : digits2 (T.drop 1) = true)
    (hsuf : ∀ j, j < T.length → (T.drop j).any (fun c => !c.isDigit) = true) :
    NoTouch d T := by
  obtain ⟨c0, T', hT, hc0⟩ := hhead
  refine ⟨?_, ?_, ?_, ?_⟩
  · intro j hj
    cases hx : leadsWith (d.drop j) T with
    | false => rfl
    | true =>
      exfalso
      obtain ⟨c, u', v', hdu, hTv⟩ := leadsWith_head_eq (drop_ne_nil_of_lt hj) hx
      have hcd : c ∈ d := List.mem_of_mem_drop (by rw [hdu]; exact List.mem_cons_self _ _)
      have hcdig := hd.2 c hcd
      rw [hT] at hTv
      have hc0c : c0 = c := (List.cons.injEq _ _ _ _).mp hTv |>.1
      rw [hc0c, hcdig] at hc0
      exact absurd hc0 (by simp)
  · intro j h1 hj
    cases hx : leadsWith (T.drop j) d with
    | false => rfl
    | true =>
      exfalso
      have hany := hsuf j hj
      rw [List.any_eq_true] at hany
      obtain ⟨c, hcmem, hcnd⟩ := hany
      have hcd : c ∈ d := mem_of_leadsWith hx hcmem
      have hcdig := hd.2 c hcd
      rw [hcdig] at hcnd
      simp at hcnd
  · intro k h1 hk
    have heq : (T.drop 1).drop (k - 1) = T.drop k := by
      rw [List.drop_drop]
      congr 1
      omega
    rw [← heq]
    exact not_leadsWith_digits hd hne2 _ (pairsOk_drop _ _ hpairs) (digits2_drop _ _ h2s)
  · intro k hk
    cases hx : leadsWith T (d.drop k) with
    | false => rfl
    | true =>
      exfalso
      obtain ⟨c, u', v', hTu, hdv⟩ := leadsWith_head_eq (by rw [hT]; simp) hx
      have hcd : c ∈ d := List.mem_of_mem_drop (by rw [hdv]; exact List.mem_cons_self _ _)
      have hcdig := hd.2 c hcd
      rw [hT] at hTu
      have hc0c : c0 = c := (List.cons.injEq _ _ _ _).mp hTu |>.1
      rw [hc0c, hcdig] at hc0
      exact absurd hc0 (by simp)

theorem noTouch_dash {a T : List Char} (ha : ∃ a', a = '-' :: a') (hra : 'r' ∉ a)
    (hT : ∃ T', T = 'r' :: T') (hdT : '-' ∉ T) : NoTouch a T := by
  obtain ⟨a', rfl⟩ := ha
  obtain ⟨T', rfl⟩ := hT
  refine ⟨?_, ?_, ?_, ?_⟩
  · intro j hj
    cases hx : leadsWith (('-' :: a').drop j) ('r' :: T') with
    | false => rfl
    | true =>
      exfalso
      obtain ⟨c, u', v', hdu, hTv⟩ := leadsWith_head_eq (drop_ne_nil_of_lt hj) hx
      have hcr : c = 'r' := ((List.cons.injEq _ _ _ _).mp hTv).1.symm
      subst hcr
      exact hra (List.mem_of_mem_drop (by rw [hdu]; exact List.mem_cons_self _ _))
  · intro j h1 hj
    cases hx : leadsWith (('r' :: T').drop j) ('-' :: a') with
    | false => rfl
    | true =>
      exfalso
      obtain ⟨c, u', v', hdu, hTv⟩ := leadsWith_head_eq (drop_ne_nil_of_lt hj) hx
      have hcd : c = '-' := ((List.cons.injEq _ _ _ _).mp hTv).1.symm
      subst hcd
      exact hdT (List.mem_of_mem_drop (by rw [hdu]; exact List.mem_cons_self _ _))
  · intro k h1 hk
    cases hx : leadsWith ('-' :: a') (('r' :: T').drop k) with
    | false => rfl
    | true =>
      exfalso
      obtain ⟨c, u', v', hau, hTv⟩ := leadsWith_head_eq (by simp) hx
      have hcd : c = '-' := ((List.cons.injEq _ _ _ _).mp hau).1.symm
      subst hcd
      exact hdT (List.mem_of_mem_drop (by rw [hTv]; exact List.mem_cons_self _ _))
  · intro k hk
    cases hx : leadsWith ('r' :: T') (('-' :: a').drop k) with
    | false => rfl
    | true =>
      exfalso
      obtain ⟨c, u', v', hTu, hav⟩ := leadsWith_head_eq (by simp) hx
      have hcr : c = 'r' := ((List.cons.injEq _ _ _ _).mp hTu).1.symm
      subst hcr
      exact hra (List.mem_of_mem_drop (by rw [hav]; exact List.mem_cons_self _ _))

/-! ### `NoTouch` instances for the four concrete placeholder tokens -/

theorem noTouch_digit_tokAngle {d : List Char} (hd : DigitStr d) (h2 : d ≠ ['2']) :
    NoTouch d tokAngle :=
  noTouch_digits hd h2
    ⟨'r', "eplace_MINUS_PI_over_N_GLOBAL_BUTTERFLIES".toList, by decide, by decide⟩
    (by decide) (by decide) (by decide)

theorem noTouch_digit_tokGlobal {d : List Char} (hd : DigitStr d) (h2 : d ≠ ['2']) :
    NoTouch d tokGlobal :=
  noTouch_digits hd h2
    ⟨'r', "eplace_N_GLOBAL_BUTTERFLIES".toList, by decide, by decide⟩
    (by decide) (by decide) (by decide)

theorem noTouch_digit_tokLog2 {d : List Char} (hd : DigitStr d) (h2 : d ≠ ['2']) :
    NoTouch d tokLog2 :=
  noTouch_digits hd h2
    ⟨'r', "eplace_LOG2_N_GLOBAL_BUTTERFLIES".toList, by decide, by decide⟩
    (by decide) (by decide) (by decide)

theorem noTouch_digit_tokLocal {d : List Char} (hd : DigitStr d) (h2 : d ≠ ['2']) :
    NoTouch d tokLocal :=
  noTouch_digits hd h2
    ⟨'r', "eplace_N_LOCAL_BUTTERFLIES".toList, by decide, by decide⟩
    (by decide) (by decide) (by decide)

theorem noTouch_angle_tokGlobal {a : List Char} (ha : ∃ a', a = '-' :: a') (hra : 'r' ∉ a) :
    NoTouch a tokGlobal :=
  noTouch_dash ha hra ⟨"eplace_N_GLOBAL_BUTTERFLIES".toList, by decide⟩ (by decide)

theorem noTouch_angle_tokLog2 {a : List Char} (ha : ∃ a', a = '-' :: a') (hra : 'r' ∉ a) :
    NoTouch a tokLog2 :=
  noTouch_dash ha hra ⟨"eplace_LOG2_N_GLOBAL_BUTTERFLIES".toList, by decide⟩ (by decide)

theorem noTouch_angle_tokLocal {a : List Char} (ha : ∃ a', a = '-' :: a') (hra : 'r' ∉ a) :
    NoTouch a tokLocal :=
  noTouch_dash ha hra ⟨"eplace_N_LOCAL_BUTTERFLIES".toList, by decide⟩ (by decide)

/-! ### Order invariance of `applySubsts` under pairwise commutation -/

theorem substComm_symmetric {p q : List Char × List Char} (h : SubstComm p q) : SubstComm q p :=
  fun s => (h s).symm

theorem applySubsts_perm :
    ∀ (l l' : List (List Char × List Char)), l.Perm l' → l.Pairwise SubstComm →
      ∀ s, applySubsts l s = applySubsts l' s := by
  intro l l' hp
  induction hp with
  | nil => intro _ _; rfl
  | cons x hp ih =>
    intro hpw s
    have hpw' := (List.pairwise_cons.mp hpw).2
    simp only [applySubsts, List.foldl_cons]
    exact ih hpw' _
  | swap x y l =>
    intro hpw s
    have hxy : SubstComm y x := (List.pairwise_cons.mp hpw).1 x (by simp)
    simp only [applySubsts, List.foldl_cons]
    rw [hxy s]
  | trans h1 h2 ih1 ih2 =>
    intro hpw s
    have hpw2 := (List.Perm.pairwise_iff (fun hxy => substComm_symmetric hxy) h1).mp hpw
    rw [ih1 hpw s, ih2 hpw2 s]

theorem applySubsts_theFour (kernel_src angleBuf : List Char) (a b c : Nat) :
    applySubsts (theFourSubsts angleBuf a b c) kernel_src =
      instantiateKernelSrc kernel_src angleBuf a b c := rfl

theorem pairwise_substComm_theFour (angleBuf : List Char)
    (nButterflies log2NB nButterfliesPerThread : Nat)
    (ha : ∃ a', angleBuf = '-' :: a') (hra : 'r' ∉ angleBuf)
    (hnB : nButterflies ≠ 2) (hlog : log2NB ≠ 2) (hp : nButterfliesPerThread ≠ 2) :
    (theFourSubsts angleBuf nButterflies log2NB nButterfliesPerThread).Pairwise SubstComm := by
  have hanil : angleBuf ≠ [] := by obtain ⟨a', rfl⟩ := ha; simp
  have hB := natToString_digitStr nButterflies
  have hL := natToString_digitStr log2NB
  have hP := natToString_digitStr nButterfliesPerThread
  have hB2 := natToString_ne_two hnB
  have hL2 := natToString_ne_two hlog
  have hP2 := natToString_ne_two hp
  simp only [theFourSubsts]
  refine List.Pairwise.cons ?_ (List.Pairwise.cons ?_ (List.Pairwise.cons ?_
    (List.Pairwise.cons ?_ List.Pairwise.nil)))
  · intro b hb
    simp only [List.mem_cons, List.not_mem_nil, or_false] at hb
    rcases hb with rfl | rfl | rfl
    · intro s
      exact replaceAll_comm tokAngle angleBuf tokGlobal (natToString nButterflies)
        (by decide) (by decide) hanil hB.1 (by constructor <;> decide)
        (by constructor <;> decide) (noTouch_angle_tokGlobal ha hra)
        (noTouch_digit_tokAngle hB hB2) s
    · intro s
      exact replaceAll_comm tokAngle angleBuf tokLog2 (natToString log2NB)
        (by decide) (by decide) hanil hL.1 (by constructor <;> decide)
        (by constructor <;> decide) (noTouch_angle_tokLog2 ha hra)
        (noTouch_digit_tokAngle hL hL2) s
    · intro s
      exact replaceAll_comm tokAngle angleBuf tokLocal (natToString nButterfliesPerThread)
        (by decide) (by decide) hanil hP.1 (by constructor <;> decide)
        (by constructor <;> decide) (noTouch_angle_tokLocal ha hra)
        (noTouch_digit_tokAngle hP hP2) s
  · intro b hb
    simp only [List.mem_cons, List.not_mem_nil, or_false] at hb
    rcases hb with rfl | rfl
    · intro s
      exact replaceAll_comm tokGlobal (natToString nButterflies) tokLog2 (natToString log2NB)
        (by decide) (by decide) hB.1 hL.1 (by constructor <;> decide)
        (by constructor <;> decide) (noTouch_digit_tokLog2 hB hB2)
        (noTouch_digit_tokGlobal hL hL2) s
    · intro s
      exact replaceAll_comm tokGlobal (natToString nButterflies) tokLocal
        (natToString nButterfliesPerThread)
        (by decide) (by decide) hB.1 hP.1 (by constructor <;> decide)
        (by constructor <;> decide) (noTouch_digit_tokLocal hB hB2)
        (noTouch_digit_tokGlobal hP hP2) s
  · intro b hb
    simp only [List.mem_cons, List.not_mem_nil, or_false] at hb
    subst hb
    intro s
    exact replaceAll_comm tokLog2 (natToString log2NB) tokLocal
      (natToString nButterfliesPerThread)
      (by decide) (by decide) hL.1 hP.1 (by constructor <;> decide)
      (by constructor <;> decide) (noTouch_digit_tokLocal hL hL2)
      (noTouch_digit_tokLog2 hP hP2) s
  · intro b hb
    exact absurd hb (List.not_mem_nil b)

/-- C8 (amended): for every template text, every angle literal of the shape
`snprintf("%a", negative float)` produces (leading minus sign, no letter r),
and every butterfly count, exponent and per-thread count whose decimal
rendering is not the single digit 2, applying the four placeholder
substitutions in any order yields the same instantiated kernel source as
the implementation's order.  (Without the digit-2 proviso this fails:
inserting the value 2 can complete a fresh occurrence of the log2
placeholder, see the counterexample.) -/
theorem instantiate_order_independent (kernel_src angleBuf : List Char)
    (nButterflies log2NB nButterfliesPerThread : Nat)
    (ha : ∃ a', angleBuf = '-' :: a') (hra : 'r' ∉ angleBuf)
    (hnB : nButterflies ≠ 2) (hlog : log2NB ≠ 2) (hp : nButterfliesPerThread ≠ 2)
    (l : List (List Char × List Char))
    (hperm : l.Perm (theFourSubsts angleBuf nButterflies log2NB nButterfliesPerThread)) :
    applySubsts l kernel_src =
      instantiateKernelSrc kernel_src angleBuf nButterflies log2NB nButterfliesPerThread := by
  rw [← applySubsts_theFour kernel_src angleBuf nButterflies log2NB nButterfliesPerThread]
  exact (applySubsts_perm _ l hperm.symm
    (pairwise_substComm_theFour angleBuf _ _ _ ha hra hnB hlog hp) kernel_src).symm

/-- Witness for `instantiate_order_independent` at a concrete instance
(the fully reversed substitution order on a one-character template). -/
theorem instantiate_order_independent_witness :
    applySubsts [(tokLocal, natToString 1), (tokLog2, natToString 0),
        (tokGlobal, natToString 1), (tokAngle, "-0x1.921fb6p-1".toList)] "x".toList =
      instantiateKernelSrc "x".toList "-0x1.921fb6p-1".toList 1 0 1 :=
  instantiate_order_independent "x".toList "-0x1.921fb6p-1".toList 1 0 1
    ⟨"0x1.921fb6p-1".toList, by decide⟩ (by decide) (by decide) (by decide) (by decide)
    _ (by decide)

/-- C8 counterexample: at N = 4 (so the global butterfly count is 2 and its
decimal rendering is the digit 2) there is a template on which replacing
the log2 placeholder before the global-count placeholder gives a different
result than the implementation's order: the global-count substitution
creates a fresh occurrence of the log2 placeholder, which the
implementation's order then substitutes but the swapped order does not. -/
theorem instantiate_order_dependent_cex :
    ([((tokLog2 : List Char), natToString 1), (tokGlobal, natToString 2),
        (tokAngle, "-0x1.921fb6p-1".toList), (tokLocal, natToString 1)]).Perm
        (theFourSubsts "-0x1.921fb6p-1".toList 2 1 1) ∧
      applySubsts [(tokLog2, natToString 1), (tokGlobal, natToString 2),
          (tokAngle, "-0x1.921fb6p-1".toList), (tokLocal, natToString 1)]
          "replace_LOGreplace_N_GLOBAL_BUTTERFLIES_N_GLOBAL_BUTTERFLIES".toList ≠
        instantiateKernelSrc
          "replace_LOGreplace_N_GLOBAL_BUTTERFLIES_N_GLOBAL_BUTTERFLIES".toList
          "-0x1.921fb6p-1".toList 2 1 1 := by
  constructor
  · decide
  · decide

/-- C7 (amended): a placeholder that does not occur in the template is
silently skipped: `ReplaceString` returns the text unchanged for that
substitution, and when none of the four placeholders occurs the
instantiation returns the template unchanged — no configuration error is
signalled anywhere (the instantiation has no error outcome). -/
theorem instantiate_missing_placeholders_silent (kernel_src angleBuf : List Char)
    (nButterflies log2NB nButterfliesPerThread : Nat)
    (h1 : containsTok tokAngle kernel_src = false)
    (h2 : containsTok tokGlobal kernel_src = false)
    (h3 : containsTok tokLog2 kernel_src = false)
    (h4 : containsTok tokLocal kernel_src = false) :
    instantiateKernelSrc kernel_src angleBuf nButterflies log2NB nButterfliesPerThread =
      kernel_src := by
  unfold instantiateKernelSrc
  rw [replaceAll_of_no_occurrence _ _ _ (not_lead_of_containsTok_false h1),
      replaceAll_of_no_occurrence _ _ _ (not_lead_of_containsTok_false h2),
      replaceAll_of_no_occurrence _ _ _ (not_lead_of_containsTok_false h3),
      replaceAll_of_no_occurrence _ _ _ (not_lead_of_containsTok_false h4)]

/-- Witness for `instantiate_missing_placeholders_silent` on a concrete
placeholder-free template. -/
theorem instantiate_missing_placeholders_silent_witness :
    instantiateKernelSrc "kernel void f".toList "-0x1.921fb6p-1".toList 4 2 1 =
      "kernel void f".toList :=
  instantiate_missing_placeholders_silent "kernel void f".toList "-0x1.921fb6p-1".toList
    4 2 1 (by decide) (by decide) (by decide) (by decide)

/-- C7 counterexample: a template in which the global-count placeholder
does not occur is instantiated without any error signal — `ReplaceString`
silently leaves the text unchanged and the instantiation returns the
template itself, refuting the claim that a missing placeholder raises a
configuration error rather than silently producing source with the
substitution missing. -/
theorem instantiate_missing_placeholder_cex :
    containsTok tokGlobal "kernel void f".toList = false ∧
      replaceAll tokGlobal (natToString 4) "kernel void f".toList = "kernel void f".toList ∧
      instantiateKernelSrc "kernel void f".toList "-0x1.921fb6p-1".toList 4 2 1 =
        "kernel void f".toList := by
  refine ⟨by decide, by decide, by decide⟩

/-! ### The literal `ReplaceString` loop: `find` facts, and the bridge to
`replaceAll` -/

theorem strFindFrom_none {s t : List Char} :
    ∀ f pos, strFindFrom s t f pos = none →
      ∀ p, pos ≤ p → p < pos + f → leadsWith t (s.drop p) = false := by
  intro f
  induction f with
  | zero => intro pos _ p h1 h2; omega
  | succ f ih =>
    intro pos h p h1 h2
    simp only [strFindFrom] at h
    by_cases hl : leadsWith t (s.drop pos) = true
    · rw [if_pos hl] at h
      exact absurd h (by simp)
    · have hl' : leadsWith t (s.drop pos) = false := by
        cases hy : leadsWith t (s.drop pos) with
        | false => rfl
        | true => exact absurd hy hl
      rw [if_neg hl] at h
      rcases eq_or_lt_of_le h1 with rfl | hlt
      · exact hl'
      · exact ih (pos + 1) h p (by omega) (by omega)

theorem strFind_none {s t : List Char} {pos : Nat} (ht : t ≠ []) (h : strFind s t pos = none) :
    ∀ p, pos ≤ p → leadsWith t (s.drop p) = false := by
  intro p hp
  by_cases hps : p ≤ s.length
  · exact strFindFrom_none _ _ h p hp (by omega)
  · rw [List.drop_of_length_le (by omega)]
    exact leadsWith_nil_of_ne ht

theorem strFindFrom_some {s t : List Char} :
    ∀ f pos p, strFindFrom s t f pos = some p →
      pos ≤ p ∧ leadsWith t (s.drop p) = true ∧
        ∀ q, pos ≤ q → q < p → leadsWith t (s.drop q) = false := by
  intro f
  induction f with
  | zero => intro pos p h; exact absurd h (by simp [strFindFrom])
  | succ f ih =>
    intro pos p h
    simp only [strFindFrom] at h
    by_cases hl : leadsWith t (s.drop pos) = true
    · rw [if_pos hl] at h
      have hpp : pos = p := by simpa using h
      subst hpp
      exact ⟨le_refl _, hl, fun q h1 h2 => absurd h1 (by omega)⟩
    · have hl' : leadsWith t (s.drop pos) = false := by
        cases hy : leadsWith t (s.drop pos) with
        | false => rfl
        | true => exact absurd hy hl
      rw [if_neg hl] at h
      obtain ⟨h1, h2, h3⟩ := ih (pos + 1) p h
      refine ⟨by omega, h2, ?_⟩
      intro q hq1 hq2
      rcases eq_or_lt_of_le hq1 with rfl | hlt
      · exact hl'
      · exact h3 q (by omega) hq2

theorem strFind_some {s t : List Char} {pos p : Nat} (h : strFind s t pos = some p) :
    pos ≤ p ∧ leadsWith t (s.drop p) = true ∧
      ∀ q, pos ≤ q → q < p → leadsWith t (s.drop q) = false :=
  strFindFrom_some _ _ _ h

theorem strFind_some_bounds {s t : List Char} {pos p : Nat} (ht : t ≠ [])
    (h : strFind s t pos = some p) : p ≤ s.length ∧ p + t.length ≤ s.length := by
  obtain ⟨-, hlead, -⟩ := strFind_some h
  have hple : p ≤ s.length := by
    by_contra hc
    rw [List.drop_of_length_le (by omega), leadsWith_nil_of_ne ht] at hlead
    exact Bool.false_ne_true hlead
  have hlen := leadsWith_length_le hlead
  rw [List.length_drop] at hlen
  exact ⟨hple, by omega⟩

theorem rsRun_invariant (t r : List Char) (ht : t ≠ []) :
    ∀ n st out, rsRun t r n st = some out → st.2 ≤ st.1.length →
      out = st.1.take st.2 ++ replaceAll t r (st.1.drop st.2) := by
  intro n
  induction n with
  | zero => intro st out h _; exact absurd h (by simp [rsRun])
  | succ n ih =>
    intro st out h hpos
    obtain ⟨s, pos⟩ := st
    simp only [rsRun, rsStep] at h
    cases hf : strFind s t pos with
    | none =>
      rw [hf] at h
      simp only [Option.some.injEq] at h
      subst h
      have hno : ∀ k, k < (s.drop pos).length → leadsWith t ((s.drop pos).drop k) = false := by
        intro k _
        rw [List.drop_drop]
        exact strFind_none ht hf (pos + k) (by omega)
      rw [replaceAll_of_no_occurrence t r (s.drop pos) hno, List.take_append_drop]
    | some p =>
      rw [hf] at h
      obtain ⟨hple, hlead, hmin⟩ := strFind_some hf
      obtain ⟨hp1, hp2⟩ := strFind_some_bounds ht hf
      have htpos : 0 < t.length := List.length_pos.mpr ht
      have hlen12 : (s.take p ++ r).length = p + r.length := by
        simp [List.length_take]
        omega
      have hinv := ih _ out h (by
        simp only [List.length_append, List.length_take, List.length_drop]
        omega)
      have htake : (s.take p ++ r ++ s.drop (p + t.length)).take (p + r.length) =
          s.take p ++ r := by
        rw [← hlen12, List.take_left]
      have hdrop : (s.take p ++ r ++ s.drop (p + t.length)).drop (p + r.length) =
          s.drop (p + t.length) := by
        rw [← hlen12, List.drop_left]
      rw [htake, hdrop] at hinv
      -- decompose `s.drop pos` around the found occurrence at `p`
      have hsplit : s.drop pos = (s.drop pos).take (p - pos) ++ s.drop p := by
        conv_lhs => rw [← List.take_append_drop (p - pos) (s.drop pos)]
        rw [List.drop_drop]
        congr 2
        omega
      have hwalk : ∀ k, k < ((s.drop pos).take (p - pos)).length →
          leadsWith t (((s.drop pos).take (p - pos)).drop k ++ s.drop p) = false := by
        intro k hk
        have hklt : k < p - pos := by
          have := List.length_take (p - pos) (s.drop pos)
          omega
        have heq : ((s.drop pos).take (p - pos)).drop k ++ s.drop p =
            s.drop (pos + k) := by
          have h1 : ((s.drop pos).take (p - pos)).drop k =
              (s.drop (pos + k)).take (p - pos - k) := by
            rw [List.drop_take, List.drop_drop]
          have h2 : s.drop p = (s.drop (pos + k)).drop (p - pos - k) := by
            rw [List.drop_drop]
            congr 1
            omega
          rw [h1, h2, List.take_append_drop]
        rw [heq]
        exact hmin (pos + k) (by omega) (by omega)
      have hrepl : replaceAll t r (s.drop pos) =
          (s.drop pos).take (p - pos) ++ (r ++ replaceAll t r (s.drop (p + t.length))) := by
        conv_lhs => rw [hsplit]
        rw [replaceAll_append_untouched t r _ _ hwalk,
          replaceAll_pos t r (s.drop p) ht hlead, List.drop_drop]
      have htakes : s.take pos ++ (s.drop pos).take (p - pos) = s.take p := by
        have := List.take_add s pos (p - pos)
        rw [show pos + (p - pos) = p by omega] at this
        exact this.symm
      rw [hinv, hrepl, ← List.append_assoc, htakes, List.append_assoc]

theorem rsRun_total (t r : List Char) (ht : t ≠ []) :
    ∀ n st, st.1.length + 1 - st.2 < n → ∃ out, rsRun t r n st = some out := by
  intro n
  induction n with
  | zero => intro st h; omega
  | succ n ih =>
    intro st h
    obtain ⟨s, pos⟩ := st
    cases hf : strFind s t pos with
    | none => exact ⟨s, by simp [rsRun, rsStep, hf]⟩
    | some p =>
      obtain ⟨hple, hlead, -⟩ := strFind_some hf
      obtain ⟨hp1, hp2⟩ := strFind_some_bounds ht hf
      have htpos : 0 < t.length := List.length_pos.mpr ht
      have hmeas : (s.take p ++ r ++ s.drop (p + t.length)).length + 1 - (p + r.length) < n := by
        simp only [List.length_append, List.length_take, List.length_drop] at h ⊢
        omega
      obtain ⟨out, hout⟩ := ih (s.take p ++ r ++ s.drop (p + t.length), p + r.length) hmeas
      exact ⟨out, by simp only [rsRun, rsStep, hf]; exact hout⟩

theorem rsRun_eq_replaceAll (t r s : List Char) (ht : t ≠ []) :
    ∃ n, rsRun t r n (s, 0) = some (replaceAll t r s) := by
  obtain ⟨out, hout⟩ := rsRun_total t r ht (s.length + 2) (s, 0)
    (by show s.length + 1 - 0 < s.length + 2; omega)
  have hinv := rsRun_invariant t r ht _ _ _ hout (by simp)
  simp only [List.take_zero, List.drop_zero, List.nil_append] at hinv
  exact ⟨s.length + 2, by rw [hout, hinv]⟩

theorem rsRun_empty_none (r : List Char) :
    ∀ n (st : List Char × Nat), st.2 ≤ st.1.length → rsRun [] r n st = none := by
  intro n
  induction n with
  | zero => intro st _; rfl
  | succ n ih =>
    intro st hpos
    obtain ⟨s, pos⟩ := st
    have hpos' : pos ≤ s.length := hpos
    have hf : strFind s [] pos = some pos := by
      have hfuel : s.length + 1 - pos = (s.length - pos) + 1 := by omega
      unfold strFind
      rw [hfuel]
      simp only [strFindFrom]
      rw [if_pos (show leadsWith [] (List.drop pos s) = true from rfl)]
    simp only [rsRun, rsStep, hf]
    apply ih
    show pos + r.length ≤ (s.take pos ++ r ++ s.drop (pos + List.length [])).length
    simp only [List.length_append, List.length_take, List.length_drop, List.length_nil]
    omega

/-- C9: `ReplaceString`'s loop terminates exactly when the search string is
nonempty: for a nonempty search the scan position advances strictly past
each replaced occurrence, so the loop exits — returning the greedy
left-to-right replacement `replaceAll` — while for the empty search
`find` succeeds at every iteration and the loop never exits. -/
theorem replaceString_terminates_iff (t r s : List Char) :
    (t ≠ [] → ∃ n, rsRun t r n (s, 0) = some (replaceAll t r s)) ∧
    (t = [] → ∀ n, rsRun t r n (s, 0) = none) := by
  constructor
  · intro ht
    exact rsRun_eq_replaceAll t r s ht
  · rintro rfl n
    exact rsRun_empty_none r n (s, 0) (by show 0 ≤ s.length; omega)

/-- Witness for `replaceString_terminates_iff` at concrete inputs: a
nonempty search terminates with the replaced subject, the empty search
never exits. -/
theorem replaceString_terminates_iff_witness :
    (∃ n, rsRun "ab".toList "z".toList n ("aab".toList, 0) =
        some (replaceAll "ab".toList "z".toList "aab".toList)) ∧
    (∀ n, rsRun ([] : List Char) "z".toList n ("aab".toList, 0) = none) :=
  ⟨(replaceString_terminates_iff "ab".toList "z".toList "aab".toList).1 (by decide),
   (replaceString_terminates_iff [] "z".toList "aab".toList).2 rfl⟩

/-! ### The configuration prober (C1, C6) -/

theorem proberRun_accept (nB : Nat) (wg : Nat → Nat) :
    ∀ fuel i p j q, proberRun nB wg fuel i p = some (j, q) → nB ≤ q * wg j := by
  intro fuel
  induction fuel with
  | zero => intro i p j q h; exact absurd h (by simp [proberRun])
  | succ fuel ih =>
    intro i p j q h
    simp only [proberRun] at h
    by_cases hc : p * wg i < nB
    · rw [if_pos hc] at h
      exact ih (i + 1) (nB / wg i) j q h
    · rw [if_neg hc] at h
      simp only [Option.some.injEq, Prod.mk.injEq] at h
      obtain ⟨rfl, rfl⟩ := h
      omega

/-- C1: whenever the constructor's probing search accepts a per-thread
count `p` (at trial `j`, with `wg j` the max work-group size queried for
the finally compiled kernel), the capacity condition
`input_size / 2 ≤ p × wg j` holds: the loop breaks out only when the
check `nButterflies > nButterfliesPerThread * workgroup_max_sz` fails. -/
theorem scopedKernelSearch_capacity (input_size : Nat) (wg : Nat → Nat) (fuel j p : Nat)
    (h : scopedKernelSearch input_size wg fuel = some (j, p)) :
    input_size / 2 ≤ p * wg j :=
  proberRun_accept (input_size / 2) wg fuel 0 1 j p h

/-- Witness for `scopedKernelSearch_capacity`: N = 8, a device answering
256, accepted immediately with one butterfly per thread. -/
theorem scopedKernelSearch_capacity_witness : (8 : Nat) / 2 ≤ 1 * (fun _ => 256) 0 :=
  scopedKernelSearch_capacity 8 (fun _ => 256) 1 0 1 rfl

/-- C6 counterexample: with 8 butterflies (N = 16) and a device reporting
max work-group size 3 at every trial, the capacity check fails at trial 1
(tried count 2, and 2 × 3 < 8), yet the count set for the next trial is
8 / 3 = 2 again — not greater than the count just tried. -/
theorem proberTried_not_increasing_cex :
    proberTried 8 (fun _ => 3) 1 * (fun _ => 3) 1 < 8 ∧
      proberTried 8 (fun _ => 3) 2 = proberTried 8 (fun _ => 3) 1 := by
  constructor
  · decide
  · decide

/-- C6 (amended): whenever the capacity check fails at trial `i` (with a
positive tried count, as along any real run, and a positive queried size),
the count set for the next trial — `(N/2) / wg i` — is at least the count
just tried and is itself positive; the tried sequence is non-decreasing,
not strictly increasing. -/
theorem proberTried_next_ge (nB : Nat) (wg : Nat → Nat) (i : Nat)
    (hwg : 1 ≤ wg i) (hpos : 1 ≤ proberTried nB wg i)
    (hfail : proberTried nB wg i * wg i < nB) :
    proberTried nB wg i ≤ proberTried nB wg (i + 1) ∧ 1 ≤ proberTried nB wg (i + 1) := by
  have hnext : proberTried nB wg (i + 1) = nB / wg i := rfl
  constructor
  · rw [hnext, Nat.le_div_iff_mul_le hwg]
    omega
  · rw [hnext, Nat.one_le_div_iff hwg]
    have hmul : 1 * wg i ≤ proberTried nB wg i * wg i := Nat.mul_le_mul_right _ hpos
    omega

/-- Witness for `proberTried_next_ge` at the concrete failing trial of the
counterexample run. -/
theorem proberTried_next_ge_witness :
    proberTried 8 (fun _ => 3) 1 ≤ proberTried 8 (fun _ => 3) 2 ∧
      1 ≤ proberTried 8 (fun _ => 3) 2 :=
  proberTried_next_ge 8 (fun _ => 3) 1 (by decide) (by decide) (by decide)

/-! ### The benchmark loop (C2, C3) -/

/-- C2 (amended): every execution of the benchmark loop is enqueued
one-dimensionally with global work size `input_size / (2 × per-thread
count)` — equivalently total butterflies `(input_size/2)` divided by the
per-thread count, not by twice the per-thread count — and with local work
size equal to the global one. -/
theorem benchEnqueues_sizes (input_size p g l : Nat)
    (h : (g, l) ∈ benchEnqueues input_size p) :
    g = (input_size / 2) / p ∧ l = g := by
  have hmem := List.eq_of_mem_replicate h
  simp only [Prod.mk.injEq] at hmem
  obtain ⟨hg, hl⟩ := hmem
  constructor
  · rw [hg]
    unfold global_item_size
    rw [Nat.div_div_eq_div_mul]
  · rw [hl, hg]
    rfl

/-- Witness for `benchEnqueues_sizes` at N = 8, one butterfly per thread:
the enqueued sizes are (4, 4) and 4 = (8/2)/1. -/
theorem benchEnqueues_sizes_witness : (4 : Nat) = (8 / 2) / 1 ∧ (4 : Nat) = 4 :=
  benchEnqueues_sizes 8 1 4 4 (by
    simp only [benchEnqueues]
    rw [List.mem_replicate]
    exact ⟨by decide, by decide⟩)

/-- C2 counterexample: at N = 8 with per-thread count 1 the loop enqueues
global size 8 / (2·1) = 4, whereas the claimed formula
(total butterflies) / (2 × per-thread count) = (8/2) / (2·1) gives 2. -/
theorem benchEnqueues_claimed_formula_cex :
    (global_item_size 8 1, local_item_size 8 1) ∈ benchEnqueues 8 1 ∧
      global_item_size 8 1 = 4 ∧ (8 / 2) / (2 * 1) = 2 ∧
      global_item_size 8 1 ≠ (8 / 2) / (2 * 1) := by
  refine ⟨?_, by decide, by decide, by decide⟩
  simp only [benchEnqueues]
  rw [List.mem_replicate]
  exact ⟨by decide, rfl⟩

theorem foldl_add_sum (f : Nat → Nat) :
    ∀ (l : List Nat) (a : Nat), l.foldl (fun acc i => acc + f i) a = a + (l.map f).sum := by
  intro l
  induction l with
  | nil => intro a; simp
  | cons x l ih =>
    intro a
    simp only [List.foldl_cons, List.map_cons, List.sum_cons]
    rw [ih]
    omega

theorem filter_range_ge (a b : Nat) :
    (List.range (a + b)).filter (fun i => decide (a ≤ i)) = List.range' a b := by
  rw [List.range_eq_range', show a + b = b + a from Nat.add_comm a b,
    ← List.range'_append 0 a b 1]
  rw [List.filter_append]
  have h1 : (List.range' 0 a).filter (fun i => decide (a ≤ i)) = [] := by
    rw [List.filter_eq_nil_iff]
    intro x hx
    rw [List.mem_range'_1] at hx
    simp only [decide_eq_true_eq]
    omega
  have h2 : (List.range' (0 + 1 * a) b).filter (fun i => decide (a ≤ i)) =
      List.range' (0 + 1 * a) b := by
    rw [List.filter_eq_self]
    intro x hx
    rw [List.mem_range'_1] at hx
    simp only [decide_eq_true_eq]
    omega
  rw [h1, h2, List.nil_append]
  congr 1
  omega

/-- C3: the benchmark loop enqueues exactly 3005 kernel executions
(5 warm-up + 3000 measured); the elapsed accumulator sums exactly the
device-reported end − start durations of the iterations 5..3004; and the
reported value is that sum divided by 3000 (the truncated mean in
nanoseconds) and then by 1000 (truncation to whole microseconds) — a
natural number, hence a single non-negative value. -/
theorem bench_count_and_mean (input_size p : Nat) (tstart tend : Nat → Nat) :
    (benchEnqueues input_size p).length = 3005 ∧
      nSkipIterations + nIterations = 3005 ∧
      benchElapsed tstart tend =
        ((List.range' nSkipIterations nIterations).map fun i => tend i - tstart i).sum ∧
      benchReport tstart tend =
        ((List.range' nSkipIterations nIterations).map fun i => tend i - tstart i).sum
          / nIterations / 1000 := by
  have helapsed : benchElapsed tstart tend =
      ((List.range' nSkipIterations nIterations).map fun i => tend i - tstart i).sum := by
    unfold benchElapsed
    rw [filter_range_ge nSkipIterations nIterations,
      foldl_add_sum (fun i => tend i - tstart i)]
    omega
  refine ⟨?_, rfl, helapsed, ?_⟩
  · simp only [benchEnqueues, List.length_replicate]
    rfl
  · unfold benchReport
    rw [helapsed]

/-! ### The local-memory guard and the size sweep (C4, C10) -/

/-- C4: when the device's reported local memory is smaller than twice the
byte size of the length-N complex output vector, `withInput` reports the
condition and returns false before creating any device image, the failing
size never becomes a completed sweep iteration, and every size the driver
did complete passed its own check (the loop `break`s at the first failure,
leaving earlier results in place). -/
theorem withInput_local_mem_guard (local_mem_sz N : Nat)
    (h : local_mem_sz < 2 * N * sizeof_complex_float) :
    (withInputTrace local_mem_sz N).2 = false ∧
      (withInputTrace local_mem_sz N).1 = [WithInputEvt.reportNotEnoughLocalMem] ∧
      WithInputEvt.createInputImage ∉ (withInputTrace local_mem_sz N).1 ∧
      WithInputEvt.createOutputImage ∉ (withInputTrace local_mem_sz N).1 ∧
      N ∉ driverCompleted local_mem_sz ∧
      ∀ sz ∈ driverCompleted local_mem_sz, (withInputTrace local_mem_sz sz).2 = true := by
  have hfail : withInputTrace local_mem_sz N =
      ([WithInputEvt.reportNotEnoughLocalMem], false) := by
    unfold withInputTrace localMemRequired
    rw [if_pos h]
  refine ⟨by rw [hfail], by rw [hfail], ?_, ?_, ?_, ?_⟩
  · rw [hfail]; simp
  · rw [hfail]; simp
  · intro hmem
    have hpred := List.mem_takeWhile_imp hmem
    rw [hfail] at hpred
    simp at hpred
  · intro sz hsz
    exact @List.mem_takeWhile_imp Nat (fun sz => (withInputTrace local_mem_sz sz).2)
      sweepSizes sz hsz

/-- Witness for `withInput_local_mem_guard`: a device with 100 bytes of
local memory and N = 8 (which needs 128 bytes); the sweep completes no
size at all. -/
theorem withInput_local_mem_guard_witness :
    (withInputTrace 100 8).2 = false ∧
      (withInputTrace 100 8).1 = [WithInputEvt.reportNotEnoughLocalMem] ∧
      WithInputEvt.createInputImage ∉ (withInputTrace 100 8).1 ∧
      WithInputEvt.createOutputImage ∉ (withInputTrace 100 8).1 ∧
      (8 : Nat) ∉ driverCompleted 100 ∧
      ∀ sz ∈ driverCompleted 100, (withInputTrace 100 sz).2 = true :=
  withInput_local_mem_guard 100 8 (by decide)

/-- C10: the local-memory byte count `withInput` passes for kernel
argument 2 (`2·sizeof(float)·2·input.size()`) is exactly the quantity the
precondition compared against `CL_DEVICE_LOCAL_MEM_SIZE`
(`2·input.size()·sizeof(complex<float>)`), so whenever the call proceeds
past the check, the requested local allocation fits within the device's
reported local memory capacity. -/
theorem kernelLocalArg_within_capacity (input_size local_mem_sz : Nat)
    (hproceed : ¬ local_mem_sz < localMemRequired input_size) :
    kernelLocalArgSize input_size = localMemRequired input_size ∧
      kernelLocalArgSize input_size ≤ local_mem_sz := by
  have heq : kernelLocalArgSize input_size = localMemRequired input_size := by
    unfold kernelLocalArgSize localMemRequired sizeof_complex_float
    ring
  refine ⟨heq, ?_⟩
  rw [heq]
  omega

/-- Witness for `kernelLocalArg_within_capacity` at N = 8 on a device with
128 bytes of local memory. -/
theorem kernelLocalArg_within_capacity_witness :
    kernelLocalArgSize 8 = localMemRequired 8 ∧ kernelLocalArgSize 8 ≤ 128 :=
  kernelLocalArg_within_capacity 8 128 (by decide)

/-- C5: the two verification comparisons use the same fixed absolute
tolerance — the self-consistency check (line 47) relies on the comparison
collaborator's default tolerance, modelled from the spec as 0.01, and the
device-result check (line 149) passes the literal 0.01f. -/
theorem verify_same_tolerance : verifyCall1.tolerance = verifyCall2.tolerance := rfl
